import Mathlib

/-!
Verification of the `blackbox` optimizer (`blackbox.py`) against its
natural-language specification.  Each Python function used by the claims is
shallowly embedded below: pure numerical code is translated over `ℝ`
(idealizing IEEE floats as real arithmetic), integer index bookkeeping over
`ℕ`/`ℤ` (Python `range(a, b)` becomes `intRange a b` over `ℤ`, since the
exploitation loop of `search_min` can start at a negative index), and the
batch loop's externally visible actions become an explicit event trace.
Definitions come first, theorems afterwards.
-/

namespace Blackbox

/-! ## Quasi-random sampler `rseq` (blackbox.py lines 194-219) -/

/-- The generalized-golden-ratio iteration `phi = pow(1+phi, 1./(d+1))`
starting from `phi = 2` (lines 211-213). -/
noncomputable def phiIter (d : ℕ) : ℕ → ℝ
  | 0 => 2
  | k + 1 => (1 + phiIter d k) ^ ((1 : ℝ) / (d + 1))

/-- The value of `phi` after the 10 iterations the source performs. -/
noncomputable def phi10 (d : ℕ) : ℝ := phiIter d 10

/-- `alpha = np.array([pow(1./phi, i+1) for i in range(d)])` (line 215). -/
noncomputable def alpha (d i : ℕ) : ℝ := (1 / phi10 d) ^ (i + 1)

/-- Coordinate `i` of the `k`-th R-sequence point:
`(0.5 + alpha*(k+1)) % 1` (line 217); Python's `% 1` on floats is
`x - floor x`, i.e. `Int.fract`. -/
noncomputable def rseqPoint (d k i : ℕ) : ℝ := Int.fract (0.5 + alpha d i * (k + 1))

/-- `rseq(n, d)`: the `n × d` array of R-sequence points (lines 194-219). -/
noncomputable def rseq (n d : ℕ) : List (List ℝ) :=
  (List.range n).map fun k => (List.range d).map fun i => rseqPoint d k i

/-! ## Exclusion-radius schedule (blackbox.py line 172)

`r = ((rho0*((m-1.-gi)/(m-1.))**p)/(v1*(n+gi)))**(1./d)` where
`gi = i*batch + j` is the global exploitation index.  Real exponentiation
(`**` on floats) is `Real.rpow`. -/

noncomputable def radius (n m d : ℕ) (rho0 p v1 : ℝ) (i : ℕ) : ℝ :=
  ((rho0 * ((((m : ℝ) - 1) - i) / ((m : ℝ) - 1)) ^ p) / (v1 * ((n : ℝ) + i))) ^ ((1 : ℝ) / d)

/-! ## Budget scheduler (blackbox.py lines 96-105) -/

/-- The round-up-to-a-multiple pattern
`if x % batch != 0: x = x - x % batch + batch` used for both the budget
(lines 97-98) and the exploration count (lines 103-104). -/
def roundUp (x batch : ℕ) : ℕ := if x % batch ≠ 0 then x - x % batch + batch else x

/-- The adjusted total budget (lines 97-99). -/
def adjustBudget (budget batch : ℕ) : ℕ := roundUp budget batch

/-- The exploration count `n` (lines 102-104): `budget//2` rounded up to a
multiple of `batch`. -/
def nExplore (budget batch : ℕ) : ℕ := roundUp (adjustBudget budget batch / 2) batch

/-- The exploitation count `m = budget - n` (line 105). -/
def mExploit (budget batch : ℕ) : ℕ := adjustBudget budget batch - nExplore budget batch

/-! ## RBF surrogate builder `rbf` (blackbox.py lines 222-270)

Points are embedded as `points : ℕ → ℕ → ℝ` (`points i c` = coordinate `c`
of row `i`; only `i < n`, `c < d` are meaningful) with the value column
split off as `F : ℕ → ℝ`.  The assembled saddle-point matrix `M`
(lines 250-253) and right-hand side `v` (lines 255-256) are indexed by
`ℕ` with sums over `Finset.range (n+d+1)`. -/

/-- `np.linalg.norm(np.subtract(x, y))` restricted to the `d` coordinates. -/
noncomputable def enorm (d : ℕ) (x y : ℕ → ℝ) : ℝ :=
  Real.sqrt (∑ c ∈ Finset.range d, (x c - y c) ^ 2)

/-- The cubic kernel `phi(r) = r*r*r` (lines 240-241). -/
def phi (r : ℝ) : ℝ := r * r * r

/-- The `(n+d+1) × (n+d+1)` saddle-point matrix: `M[0:n,0:n] = Phi`,
`M[0:n,n:n+d+1] = P` (coordinates then a column of ones),
`M[n:n+d+1,0:n] = Pᵗ`, zero elsewhere (lines 243-253). -/
noncomputable def Mmat (n d : ℕ) (points : ℕ → ℕ → ℝ) : ℕ → ℕ → ℝ := fun i j =>
  if i < n then
    if j < n then phi (enorm d (points i) (points j))
    else if j < n + d then points i (j - n)
    else if j = n + d then 1 else 0
  else if i < n + d then
    if j < n then points j (i - n) else 0
  else if i = n + d then
    if j < n then 1 else 0
  else 0

/-- The right-hand side `v`: observed values on the first `n` entries,
zero afterwards (lines 255-256). -/
def vvec (n : ℕ) (F : ℕ → ℝ) : ℕ → ℝ := fun i => if i < n then F i else 0

/-- `sol` solves the assembled linear system `M · sol = v` (line 259:
`sol = np.linalg.solve(M, v)`; when `M` is nonsingular this pins down the
unique vector `np.linalg.solve` returns). -/
def SolvesSystem (n d : ℕ) (points : ℕ → ℕ → ℝ) (F : ℕ → ℝ) (sol : ℕ → ℝ) : Prop :=
  ∀ i < n + d + 1, ∑ j ∈ Finset.range (n + d + 1), Mmat n d points i j * sol j = vvec n F i

/-- The returned surrogate (lines 265-268):
`fit(x) = Σ lam[i]·phi(‖x−p_i‖) + b·x + a` with `lam = sol[0:n]`,
`b = sol[n:n+d]`, `a = sol[n+d]`. -/
noncomputable def fit (n d : ℕ) (points : ℕ → ℕ → ℝ) (sol : ℕ → ℝ) (x : ℕ → ℝ) : ℝ :=
  (∑ i ∈ Finset.range n, sol i * phi (enorm d x (points i)))
    + (∑ c ∈ Finset.range d, sol (n + c) * x c) + sol (n + d)

/-- Concrete two-point training set (rows `(0)` and `(1)` in one dimension)
used to instantiate `rbf_interpolation`. -/
noncomputable def ptsW : ℕ → ℕ → ℝ := fun i _ => (i : ℝ)

/-! ## Batch loop of `search_min` (blackbox.py lines 138-191)

The loop's index bookkeeping and externally visible actions are embedded.
`intRange a b` is Python's `range(a, b)`; the exploitation loop is
`for i in range(curr_iter - n//batch, m//batch)` (line 161), which is why
its indices live in `ℤ`. -/

/-- Python `range(a, b)` over `ℤ`. -/
def intRange (a b : ℤ) : List ℤ := (List.range (b - a).toNat).map fun t => a + t

/-- The index list of the exploitation loop,
`range(curr_iter - n//batch, m//batch)` (line 161), with `nb = n//batch`
and `mb = m//batch`. -/
def exploitIndices (curr_iter nb mb : ℕ) : List ℤ := intRange ((curr_iter : ℤ) - nb) mb

/-- Whether exploitation iteration `i` raises `ZeroDivisionError` at the
radius computation (line 172): for `j in range(batch)` the first statement
of the inner loop divides by `v1*(n + i*batch + j)` with `v1 > 0`, which is
zero exactly when the integer `n + i*batch + j` is zero (possible because on
fresh runs `i` starts at the negative value `-(n//batch)`).  The division
precedes that `j`'s candidate selection (line 176), the batch's evaluation
(lines 181-182) and its saves (lines 184-186), so a crashing iteration
produces none of them and kills the whole run. -/
def crashesAt (n batch : ℕ) (i : ℤ) : Bool :=
  (List.range batch).any fun j => decide ((n : ℤ) + (i * batch + j) = 0)

/-- Row-count bookkeeping of the exploitation loop: every iteration first
appends `batch` zero rows (line 169:
`points = np.append(points, np.zeros((batch, d+1)))`); a crashing iteration
dies after that append, a completing one continues with the grown matrix. -/
def exploitRowsAux (batch : ℕ) (crash : ℤ → Bool) : ℕ → List ℤ → ℕ
  | rows, [] => rows
  | rows, i :: rest =>
    if crash i then rows + batch
    else exploitRowsAux batch crash (rows + batch) rest

/-- The number of rows of `points` when the exploitation loop over `ids`
ends — all iterations completed, or `ZeroDivisionError` at line 172 —
starting from the `n` exploration rows. -/
def exploitFinalRows (n batch : ℕ) (ids : List ℤ) : ℕ :=
  exploitRowsAux batch (crashesAt n batch) n ids

/-- Externally visible actions of one batch of `search_min`:
`eval i` = the executor evaluates batch `i` (lines 143-144 / 181-182),
`save i` = checkpoint + incremental csv written after batch `i`
(lines 145-147 / 184-186), `crash i` = batch `i` dies with
`ZeroDivisionError` at line 172 before evaluating or saving anything,
`finalReport` = the final sorted csv (line 189). -/
inductive Event where
  | eval : ℤ → Event
  | save : ℤ → Event
  | crash : ℤ → Event
  | finalReport : Event
deriving DecidableEq

/-- One batch loop of `search_min`: at the top of every iteration the stop
condition is checked (`if os.path.isfile('stop'): return`, lines 140-142 and
163-165); past it, an iteration whose radius computation divides by zero
(`crash id`) kills the run before its evaluation and saves; otherwise the
batch is evaluated and persisted.  `stop t` is the stop-file test at the
`t`-th batch attempt of the run; the `Bool` result records whether the loop
ended early (stopped or crashed). -/
def runBatches (stop : ℕ → Bool) (crash : ℤ → Bool) : ℕ → List ℤ → List Event × Bool
  | _, [] => ([], false)
  | t, id :: rest =>
    if stop t then ([], true)
    else if crash id then ([Event.crash id], true)
    else
      let res := runBatches stop crash (t + 1) rest
      (Event.eval id :: Event.save id :: res.1, res.2)

/-- The full sequence of batch indices `search_min` attempts: exploration
batches `range(curr_iter, n//batch)` (line 138) followed by exploitation
batches `range(curr_iter - n//batch, m//batch)` (line 161). -/
def batchSchedule (curr_iter nb mb : ℕ) : List ℤ :=
  intRange (curr_iter : ℤ) (nb : ℤ) ++ exploitIndices curr_iter nb mb

/-- The event trace of `search_min` (lines 138-191): the exploration loop
(which computes no radius, hence never crashes), then — only when it was not
stopped — the exploitation loop with the line-172 crash condition, then —
only when that ended neither stopped nor crashed — the final sorted
report. -/
def searchEvents (stop : ℕ → Bool) (n batch curr_iter nb mb : ℕ) : List Event :=
  let explore := intRange (curr_iter : ℤ) (nb : ℤ)
  let res1 := runBatches stop (fun _ => false) 0 explore
  if res1.2 then res1.1
  else
    let res2 := runBatches stop (crashesAt n batch) explore.length
      (exploitIndices curr_iter nb mb)
    if res2.2 then res1.1 ++ res2.1
    else res1.1 ++ res2.1 ++ [Event.finalReport]

/-! ## Initialization of `search_min` (blackbox.py lines 79-91 and 127-135) -/

/-- A zero row of the `(d+1)`-column point matrix (`np.zeros((·, d+1))`). -/
def zeroRow (d : ℕ) : List ℝ := List.replicate (d + 1) 0

/-- The freshly generated point matrix of lines 129-130:
`points = np.zeros((n, d+1)); points[:, 0:-1] = rseq(n, d)`. -/
noncomputable def freshPoints (n d : ℕ) : List (List ℝ) :=
  (rseq n d).map fun r => r ++ [0]

/-- The widened point matrix of lines 132-135: append `n` zero rows, then
overwrite the coordinate columns of every row from `start = curr_iter*batch`
on with a fresh R-sequence, keeping those rows' value column. -/
noncomputable def widenPoints (ps : List (List ℝ)) (n d start : ℕ) : List (List ℝ) :=
  let padded := ps ++ List.replicate n (zeroRow d)
  padded.take start ++
    List.zipWith (fun row coords => coords ++ [row.getD d 0])
      (padded.drop start) (rseq (padded.length - start) d)

/-- `curr_iter` after the checkpoint-loading block (lines 79-91): the saved
index plus one when a checkpoint exists and continuation is enabled,
otherwise 0. -/
def initCurrIter (checkpointExists continue_search : Bool) (saved : ℕ) : ℕ :=
  if checkpointExists && continue_search then saved + 1 else 0

/-- The `points` variable after the generation block of lines 127-135.
`loaded` is the point matrix restored from a checkpoint (`none` when no
checkpoint file exists, in which case the Python variable `points` is
unbound).  The source generates fresh points only under
`if not continue_search:` (line 127) and widens only under
`elif widen_search:` (line 131), whose `np.append(points, ...)` needs the
loaded matrix; a `none` result means `points` is still unbound when the
exploration loop first reads it (line 144), i.e. a `NameError`. -/
noncomputable def initPoints (continue_search widen_search : Bool)
    (loaded : Option (List (List ℝ))) (n d start : ℕ) : Option (List (List ℝ)) :=
  if !continue_search then some (freshPoints n d)
  else if widen_search then loaded.map fun ps => widenPoints ps n d start
  else loaded

/-! ## Value normalization (blackbox.py lines 149-151 and 182) -/

/-- `fmax = max(abs(points[:, -1]))` (line 150): the maximum absolute value
of the stored objective values. -/
noncomputable def fmax : List ℝ → ℝ
  | [] => 0
  | v :: rest => rest.foldl (fun acc x => max acc |x|) |v|

end Blackbox

namespace Blackbox

/-! ## Theorems: sampler (claims C8, C9) -/

theorem rseq_length (n d : ℕ) : (rseq n d).length = n := by
  simp [rseq]

theorem rseq_row (n d k : ℕ) (hk : k < n) :
    (rseq n d).getD k [] = (List.range d).map fun i => rseqPoint d k i := by
  unfold rseq
  rw [List.getD_eq_getElem _ _ (by simpa [rseq] using hk)]
  simp

/-- Claim C8: `rseq(n, d)` returns `n` points; point `k` has coordinate `i`
equal to `(0.5 + phi^(-(i+1))·(k+1)) mod 1` with `phi` obtained by 10
iterations of `phi ← (1+phi)^(1/(d+1))` from `phi = 2`; the output is a pure
function of `(n, d)` (hence deterministic) and every coordinate lies in
`[0, 1)`. -/
theorem rseq_formula_range (n d : ℕ) (hn : 1 ≤ n) (hd : 1 ≤ d) :
    (rseq n d).length = n ∧
    (∀ k, k < n → ((rseq n d).getD k []).length = d) ∧
    (∀ k i, k < n → i < d →
      ((rseq n d).getD k []).getD i 0
          = Int.fract (0.5 + phi10 d ^ (-((i : ℤ) + 1)) * (k + 1)) ∧
      0 ≤ ((rseq n d).getD k []).getD i 0 ∧
      ((rseq n d).getD k []).getD i 0 < 1) := by
  refine ⟨rseq_length n d, ?_, ?_⟩
  · intro k hk
    rw [rseq_row n d k hk]
    simp
  · intro k i hk hi
    rw [rseq_row n d k hk]
    have hlen : i < ((List.range d).map fun i => rseqPoint d k i).length := by
      simpa using hi
    rw [List.getD_eq_getElem _ _ hlen]
    have hcoord : ((List.range d).map fun i => rseqPoint d k i)[i] = rseqPoint d k i := by
      simp
    rw [hcoord]
    refine ⟨?_, Int.fract_nonneg _, Int.fract_lt_one _⟩
    unfold rseqPoint alpha
    have hpow : (1 / phi10 d) ^ (i + 1) = phi10 d ^ (-((i : ℤ) + 1)) := by
      rw [one_div, inv_pow, ← zpow_natCast (phi10 d) (i + 1), ← zpow_neg]
      norm_num
    rw [hpow]

/-- Claim C9: for every `d` and sizes `n ≥ k`, the first `k` rows of
`rseq(n, d)` equal `rseq(k, d)` (prefix independence of the sampler). -/
theorem rseq_prefix (d k n : ℕ) (hkn : k ≤ n) :
    (rseq n d).take k = rseq k d := by
  unfold rseq
  rw [← List.map_take, List.take_range, Nat.min_eq_left hkn]

/-- Witness for C8 at `n = 1`, `d = 1`. -/
theorem rseq_formula_range_witness :
    (rseq 1 1).length = 1 ∧
    (∀ k, k < 1 → ((rseq 1 1).getD k []).length = 1) ∧
    (∀ k i, k < 1 → i < 1 →
      ((rseq 1 1).getD k []).getD i 0
          = Int.fract (0.5 + phi10 1 ^ (-((i : ℤ) + 1)) * (k + 1)) ∧
      0 ≤ ((rseq 1 1).getD k []).getD i 0 ∧
      ((rseq 1 1).getD k []).getD i 0 < 1) :=
  rseq_formula_range 1 1 (by decide) (by decide)

/-- Witness for C9 at `d = 1`, `k = 1`, `n = 2`. -/
theorem rseq_prefix_witness : (rseq 2 1).take 1 = rseq 1 1 :=
  rseq_prefix 1 1 2 (by decide)

/-! ## Theorems: exclusion-radius schedule (claim C5) -/

/-- Claim C5: for `m ≥ 2`, `n ≥ 1`, `d ≥ 1`, `rho0 > 0`, `p > 0`, `v1 > 0`,
the exclusion radius is non-increasing in the global exploitation index over
`0..m-1`, and is a well-defined (finite) positive real for every index
`i < m-1`. -/
theorem radius_monotone_finite (n m d : ℕ) (rho0 p v1 : ℝ)
    (hm : 2 ≤ m) (hn : 1 ≤ n) (hd : 1 ≤ d) (hrho : 0 < rho0) (hp : 0 < p) (hv : 0 < v1) :
    (∀ i j : ℕ, i ≤ j → j ≤ m - 1 → radius n m d rho0 p v1 j ≤ radius n m d rho0 p v1 i) ∧
    (∀ i : ℕ, i < m - 1 → 0 < radius n m d rho0 p v1 i) := by
  have hm1 : (0 : ℝ) < (m : ℝ) - 1 := by
    have : (2 : ℝ) ≤ (m : ℝ) := by exact_mod_cast hm
    linarith
  have hdpos : (0 : ℝ) < 1 / (d : ℝ) := by
    have : (0 : ℝ) < (d : ℝ) := by exact_mod_cast hd
    positivity
  constructor
  · intro i j hij hjm
    have hjR : (j : ℝ) ≤ (m : ℝ) - 1 := by
      have h1 : (j : ℝ) ≤ ((m - 1 : ℕ) : ℝ) := by exact_mod_cast hjm
      rwa [Nat.cast_sub (by omega), Nat.cast_one] at h1
    have hijR : (i : ℝ) ≤ (j : ℝ) := by exact_mod_cast hij
    have hAj : (0 : ℝ) ≤ (((m : ℝ) - 1) - j) / ((m : ℝ) - 1) :=
      div_nonneg (by linarith) hm1.le
    have hAji : (((m : ℝ) - 1) - j) / ((m : ℝ) - 1) ≤ (((m : ℝ) - 1) - i) / ((m : ℝ) - 1) :=
      (div_le_div_iff_of_pos_right hm1).mpr (by linarith)
    have hnum : rho0 * ((((m : ℝ) - 1) - j) / ((m : ℝ) - 1)) ^ p
        ≤ rho0 * ((((m : ℝ) - 1) - i) / ((m : ℝ) - 1)) ^ p :=
      mul_le_mul_of_nonneg_left (Real.rpow_le_rpow hAj hAji hp.le) hrho.le
    have hdeni : (0 : ℝ) < v1 * ((n : ℝ) + i) := by
      have : (1 : ℝ) ≤ (n : ℝ) := by exact_mod_cast hn
      have hi0 : (0 : ℝ) ≤ (i : ℝ) := Nat.cast_nonneg i
      positivity
    have hdenle : v1 * ((n : ℝ) + i) ≤ v1 * ((n : ℝ) + j) :=
      mul_le_mul_of_nonneg_left (by linarith) hv.le
    have hnumi : (0 : ℝ) ≤ rho0 * ((((m : ℝ) - 1) - i) / ((m : ℝ) - 1)) ^ p := by
      have := Real.rpow_nonneg (le_trans hAj hAji) p
      positivity
    have hfrac : (rho0 * ((((m : ℝ) - 1) - j) / ((m : ℝ) - 1)) ^ p) / (v1 * ((n : ℝ) + j))
        ≤ (rho0 * ((((m : ℝ) - 1) - i) / ((m : ℝ) - 1)) ^ p) / (v1 * ((n : ℝ) + i)) :=
      div_le_div₀ hnumi hnum hdeni hdenle
    have hfracj : (0 : ℝ)
        ≤ (rho0 * ((((m : ℝ) - 1) - j) / ((m : ℝ) - 1)) ^ p) / (v1 * ((n : ℝ) + j)) := by
      have h2 := Real.rpow_nonneg hAj p
      have h3 : (0 : ℝ) < v1 * ((n : ℝ) + j) := lt_of_lt_of_le hdeni hdenle
      positivity
    exact Real.rpow_le_rpow hfracj hfrac hdpos.le
  · intro i hi
    have hiR : (i : ℝ) < (m : ℝ) - 1 := by
      have h1 : (i : ℝ) < ((m - 1 : ℕ) : ℝ) := by exact_mod_cast hi
      rwa [Nat.cast_sub (by omega), Nat.cast_one] at h1
    have hA : (0 : ℝ) < (((m : ℝ) - 1) - i) / ((m : ℝ) - 1) :=
      div_pos (by linarith) hm1
    have hnum : (0 : ℝ) < rho0 * ((((m : ℝ) - 1) - i) / ((m : ℝ) - 1)) ^ p :=
      mul_pos hrho (Real.rpow_pos_of_pos hA p)
    have hden : (0 : ℝ) < v1 * ((n : ℝ) + i) := by
      have : (1 : ℝ) ≤ (n : ℝ) := by exact_mod_cast hn
      have hi0 : (0 : ℝ) ≤ (i : ℝ) := Nat.cast_nonneg i
      positivity
    exact Real.rpow_pos_of_pos (div_pos hnum hden) _

/-- Witness for C5 at `n = 1`, `m = 3`, `d = 1`, `rho0 = p = v1 = 1`. -/
theorem radius_monotone_finite_witness :
    (∀ i j : ℕ, i ≤ j → j ≤ 3 - 1 → radius 1 3 1 1 1 1 j ≤ radius 1 3 1 1 1 1 i) ∧
    (∀ i : ℕ, i < 3 - 1 → 0 < radius 1 3 1 1 1 1 i) :=
  radius_monotone_finite 1 3 1 1 1 1 (by decide) (by decide) (by decide)
    (by norm_num) (by norm_num) (by norm_num)

/-! ## Theorems: budget scheduler (claim C6) -/

theorem roundUp_spec (x batch : ℕ) (hb : 0 < batch) :
    roundUp x batch % batch = 0 ∧ x ≤ roundUp x batch ∧
    ∀ t, t % batch = 0 → x ≤ t → roundUp x batch ≤ t := by
  unfold roundUp
  by_cases h : x % batch = 0
  · rw [if_neg (by simp [h])]
    exact ⟨h, le_refl x, fun t _ hxt => hxt⟩
  · rw [if_pos h]
    have hdm : batch * (x / batch) + x % batch = x := Nat.div_add_mod x batch
    have hr : x % batch < batch := Nat.mod_lt x hb
    have hsub : x - x % batch = batch * (x / batch) :=
      Nat.sub_eq_of_eq_add hdm.symm
    have hval : x - x % batch + batch = batch * (x / batch + 1) := by
      rw [hsub, Nat.mul_succ]
    rw [hval]
    refine ⟨Nat.mul_mod_right batch _, ?_, ?_⟩
    · calc x = batch * (x / batch) + x % batch := hdm.symm
        _ ≤ batch * (x / batch) + batch := by exact Nat.add_le_add_left hr.le _
        _ = batch * (x / batch + 1) := (Nat.mul_succ batch _).symm
    · intro t ht hxt
      obtain ⟨k, hk⟩ := Nat.dvd_of_mod_eq_zero ht
      subst hk
      have hqk : x / batch < k := by
        by_contra hle
        push_neg at hle
        have h1 : batch * k ≤ batch * (x / batch) := Nat.mul_le_mul_left batch hle
        have h2 : batch * (x / batch) < x := by
          have hpos : 0 < x % batch := Nat.pos_of_ne_zero h
          calc batch * (x / batch)
              < batch * (x / batch) + x % batch := Nat.lt_add_of_pos_right hpos
            _ = x := hdm
        exact absurd hxt (by omega)
      exact Nat.mul_le_mul_left batch hqk

/-- Claim C6: the scheduler replaces the budget by the least multiple of
`batch` that is `≥ budget` (unchanged when already a multiple), sets `n` to
`budget//2` rounded up to a multiple of `batch` (i.e. the least such multiple
`≥ budget//2`), and sets `m = budget - n`; in particular `budget = 97`,
`batch = 10` yields `budget = 100`, `n = 50`, `m = 50`. -/
theorem budget_rounding (budget batch : ℕ) (hb : 1 ≤ batch) (hbu : 1 ≤ budget) :
    adjustBudget budget batch % batch = 0 ∧
    budget ≤ adjustBudget budget batch ∧
    (∀ t, t % batch = 0 → budget ≤ t → adjustBudget budget batch ≤ t) ∧
    (budget % batch = 0 → adjustBudget budget batch = budget) ∧
    nExplore budget batch % batch = 0 ∧
    adjustBudget budget batch / 2 ≤ nExplore budget batch ∧
    (∀ t, t % batch = 0 → adjustBudget budget batch / 2 ≤ t → nExplore budget batch ≤ t) ∧
    mExploit budget batch = adjustBudget budget batch - nExplore budget batch ∧
    adjustBudget 97 10 = 100 ∧ nExplore 97 10 = 50 ∧ mExploit 97 10 = 50 := by
  obtain ⟨hb1, hb2, hb3⟩ := roundUp_spec budget batch hb
  obtain ⟨hn1, hn2, hn3⟩ := roundUp_spec (adjustBudget budget batch / 2) batch hb
  refine ⟨hb1, hb2, hb3, ?_, hn1, hn2, hn3, rfl, by decide, by decide, by decide⟩
  intro hmod
  unfold adjustBudget roundUp
  rw [if_neg (by simp [hmod])]

/-- Witness for C6: the concrete instance `budget = 97`, `batch = 10`. -/
theorem budget_rounding_witness :
    adjustBudget 97 10 = 100 ∧ nExplore 97 10 = 50 ∧ mExploit 97 10 = 50 := by
  have h := budget_rounding 97 10 (by decide) (by decide)
  exact ⟨h.2.2.2.2.2.2.2.2.1, h.2.2.2.2.2.2.2.2.2⟩

/-! ## Theorems: RBF surrogate (claim C4) -/

theorem sum_range_add' {f : ℕ → ℝ} (a b : ℕ) :
    ∑ i ∈ Finset.range (a + b), f i
      = (∑ i ∈ Finset.range a, f i) + ∑ i ∈ Finset.range b, f (a + i) := by
  induction b with
  | zero => simp
  | succ b ih => rw [← Nat.add_assoc, Finset.sum_range_succ, ih, Finset.sum_range_succ]; ring

/-- Claim C4: for a point set with pairwise-distinct coordinate rows whose
saddle-point system was solved (as `np.linalg.solve` does when the matrix is
nonsingular), the surrogate `fit(x) = Σ λ_i·‖x−p_i‖³ + b·x + a` built from
the solution reproduces every training value exactly at the corresponding
training point (exact real arithmetic stands in for "within numerical
tolerance"). -/
theorem rbf_interpolation (n d : ℕ) (points : ℕ → ℕ → ℝ) (F : ℕ → ℝ) (sol : ℕ → ℝ)
    (hdist : ∀ i j, i < n → j < n → i ≠ j → ∃ c < d, points i c ≠ points j c)
    (hsol : SolvesSystem n d points F sol) :
    ∀ k < n, fit n d points sol (points k) = F k := by
  intro k hk
  have hrow := hsol k (by omega)
  have hsplit : ∑ j ∈ Finset.range (n + d + 1), Mmat n d points k j * sol j
      = (∑ j ∈ Finset.range n, Mmat n d points k j * sol j)
        + (∑ c ∈ Finset.range d, Mmat n d points k (n + c) * sol (n + c))
        + Mmat n d points k (n + d) * sol (n + d) := by
    rw [Finset.sum_range_succ, sum_range_add']
  have h1 : ∀ j ∈ Finset.range n,
      Mmat n d points k j * sol j = sol j * phi (enorm d (points k) (points j)) := by
    intro j hj
    rw [Finset.mem_range] at hj
    unfold Mmat
    rw [if_pos hk, if_pos hj]
    ring
  have h2 : ∀ c ∈ Finset.range d,
      Mmat n d points k (n + c) * sol (n + c) = sol (n + c) * points k c := by
    intro c hc
    rw [Finset.mem_range] at hc
    unfold Mmat
    rw [if_pos hk, if_neg (by omega), if_pos (by omega)]
    simp [Nat.add_sub_cancel_left]
    ring
  have h3 : Mmat n d points k (n + d) * sol (n + d) = sol (n + d) := by
    unfold Mmat
    rw [if_pos hk, if_neg (by omega), if_neg (by omega), if_pos rfl]
    ring
  have hv : vvec n F k = F k := by unfold vvec; rw [if_pos hk]
  rw [hsplit, Finset.sum_congr rfl h1, Finset.sum_congr rfl h2, h3, hv] at hrow
  unfold fit
  rw [← hrow]

/-- Witness for C4: the two training points `0` and `1` in one dimension with
all-zero training values; the zero coefficient vector solves the system and
the surrogate reproduces the value at training point `0`. -/
theorem rbf_interpolation_witness :
    fit 2 1 ptsW (fun _ => (0 : ℝ)) (ptsW 0) = 0 :=
  rbf_interpolation 2 1 ptsW (fun _ => (0 : ℝ)) (fun _ => (0 : ℝ))
    (fun i j _ _ hne => ⟨0, Nat.zero_lt_one, fun h => hne (Nat.cast_injective h)⟩)
    (by intro i _; simp [SolvesSystem, vvec]) 0 (by norm_num)

/-! ## Theorems: exploitation loop on fresh runs (claim C1) -/

/-- The `crashesAt` test is exactly the vanishing of the real radius
denominator `v1*(n + i*batch + j)` of line 172 for some `j` of the
iteration, for any positive `v1` (both unit-ball volume formulas of
lines 154-157 are positive). -/
theorem crashesAt_denominator (n batch : ℕ) (i : ℤ) (v1 : ℝ) (hv : 0 < v1) :
    crashesAt n batch i = true
      ↔ ∃ j < batch, v1 * ((n : ℝ) + ((i : ℝ) * batch + j)) = 0 := by
  unfold crashesAt
  rw [List.any_eq_true]
  constructor
  · rintro ⟨j, hj, hz⟩
    rw [List.mem_range] at hj
    rw [decide_eq_true_iff] at hz
    refine ⟨j, hj, ?_⟩
    have hcast : (n : ℝ) + ((i : ℝ) * batch + j) = (((n : ℤ) + (i * batch + j) : ℤ) : ℝ) := by
      push_cast
      ring
    rw [hcast, hz]
    simp
  · rintro ⟨j, hj, hz⟩
    refine ⟨j, List.mem_range.mpr hj, ?_⟩
    rw [decide_eq_true_iff]
    have h0 : (n : ℝ) + ((i : ℝ) * batch + j) = 0 := by
      rcases mul_eq_zero.mp hz with h | h
      · exact absurd h hv.ne'
      · exact h
    have hcast : (((n : ℤ) + (i * batch + j) : ℤ) : ℝ) = 0 := by
      push_cast at h0 ⊢
      linarith
    exact_mod_cast hcast

/-- Claim C1 is false on the code: on a fresh run `curr_iter = 0`, so with
`budget = 4`, `batch = 1`, `d = 1` (hence `n = m = 2`, `n//batch = 2`,
`m//batch = 2`) the exploitation loop `range(curr_iter - n//batch, m//batch)`
schedules `4 ≠ m/batch = 2` batches starting at `i = -2`; that first
iteration computes the radius at global index `i*batch + 0 = -n` where the
denominator `v1*(n + i*batch + j)` is zero, so the run dies with
`ZeroDivisionError` at line 172, with `n + batch = 3 ≠ n + m = 4` rows
(the crashing iteration had already appended its `batch` zero rows), after
evaluating and persisting only the two exploration batches — no
exploitation batch is ever evaluated or saved, no final report is written,
and `DONE` is never reached.  Resumed runs, whose loaded `curr_iter` is at
least `n//batch` once exploration is over, do behave as the claim states. -/
theorem exploit_fresh_run_crashes :
    nExplore 4 1 = 2 ∧ mExploit 4 1 = 2 ∧
    (exploitIndices 0 2 2).length = 4 ∧
    exploitIndices 0 2 2 = [-2, -1, 0, 1] ∧
    crashesAt 2 1 (-2) = true ∧
    exploitFinalRows 2 1 (exploitIndices 0 2 2) = 3 ∧
    searchEvents (fun _ => false) 2 1 0 2 2
      = [Event.eval 0, Event.save 0, Event.eval 1, Event.save 1, Event.crash (-2)] := by
  decide

/-! ## Theorems: stop condition (claim C7) -/

theorem runBatches_no_stop (stop : ℕ → Bool) (crash : ℤ → Bool) (t0 : ℕ) (ids : List ℤ)
    (h : ∀ k, k < ids.length → stop (t0 + k) = false)
    (hc : ∀ id ∈ ids, crash id = false) :
    runBatches stop crash t0 ids
      = (ids.flatMap fun id => [Event.eval id, Event.save id], false) := by
  induction ids generalizing t0 with
  | nil => simp [runBatches]
  | cons id rest ih =>
    have h0 : stop t0 = false := by simpa using h 0 (by simp)
    have hc0 : crash id = false := hc id (by simp)
    have hrest := ih (t0 + 1) (fun k hk => by
      have := h (k + 1) (by simpa using Nat.succ_lt_succ hk)
      simpa [Nat.add_assoc, Nat.add_comm 1 k] using this)
      fun x hx => hc x (by simp [hx])
    simp [runBatches, h0, hc0, hrest]

theorem runBatches_stop (stop : ℕ → Bool) (crash : ℤ → Bool) (t0 : ℕ) (ids : List ℤ) (k : ℕ)
    (hk : k < ids.length) (hs : stop (t0 + k) = true)
    (hb : ∀ j, j < k → stop (t0 + j) = false)
    (hc : ∀ x ∈ ids.take k, crash x = false) :
    runBatches stop crash t0 ids
      = ((ids.take k).flatMap fun id => [Event.eval id, Event.save id], true) := by
  induction ids generalizing t0 k with
  | nil => simp at hk
  | cons id rest ih =>
    cases k with
    | zero =>
      have hs0 : stop t0 = true := by simpa using hs
      simp [runBatches, hs0]
    | succ k =>
      have h0 : stop t0 = false := by simpa using hb 0 (Nat.succ_pos k)
      have hc0 : crash id = false := hc id (by simp [List.take_succ_cons])
      have hs' : stop (t0 + 1 + k) = true := by
        simpa [Nat.add_assoc, Nat.add_comm 1 k] using hs
      have hb' : ∀ j, j < k → stop (t0 + 1 + j) = false := fun j hj => by
        have := hb (j + 1) (Nat.succ_lt_succ hj)
        simpa [Nat.add_assoc, Nat.add_comm 1 j] using this
      have hc' : ∀ x ∈ rest.take k, crash x = false := fun x hx => by
        exact hc x (by simp [List.take_succ_cons, hx])
      have hrest := ih (t0 + 1) k (by simpa using Nat.lt_of_succ_lt_succ hk) hs' hb' hc'
      simp [runBatches, h0, hc0, hrest]

/-- Claim C7: if the external stop condition first holds at the start of
batch attempt `s` — any batch, exploration or exploitation, that the run
actually reaches, i.e. such that no earlier exploitation batch raised the
line-172 `ZeroDivisionError` — then `search_min` returns immediately: the
trace contains exactly one evaluation and one checkpoint/result write per
batch strictly before `s`, in order; batch `s` is neither selected,
evaluated nor persisted, and no final report is written, so the last
persisted state is that of the last completed batch. -/
theorem stop_halts_immediately (stop : ℕ → Bool) (n batch curr_iter nb mb s : ℕ)
    (hs : stop s = true) (hbefore : ∀ t, t < s → stop t = false)
    (hlt : s < (batchSchedule curr_iter nb mb).length)
    (hnocrash : ∀ x ∈ (exploitIndices curr_iter nb mb).take
        (s - (intRange (curr_iter : ℤ) (nb : ℤ)).length), crashesAt n batch x = false) :
    searchEvents stop n batch curr_iter nb mb
      = ((batchSchedule curr_iter nb mb).take s).flatMap
          fun id => [Event.eval id, Event.save id] := by
  unfold searchEvents batchSchedule
  dsimp only
  by_cases hcase : s < (intRange (curr_iter : ℤ) (nb : ℤ)).length
  · rw [runBatches_stop stop (fun _ => false) 0 _ s hcase (by simpa using hs)
      (fun j hj => by simpa using hbefore j hj) (fun x _ => rfl)]
    simp only [if_true]
    rw [List.take_append_of_le_length hcase.le]
  · push_neg at hcase
    rw [runBatches_no_stop stop (fun _ => false) 0 _ (fun k hk => by
      simpa using hbefore k (lt_of_lt_of_le hk hcase)) (fun x _ => rfl)]
    simp only [if_false]
    have hk2 : s - (intRange (curr_iter : ℤ) (nb : ℤ)).length
        < (exploitIndices curr_iter nb mb).length := by
      rw [batchSchedule, List.length_append] at hlt
      omega
    rw [runBatches_stop stop (crashesAt n batch) _ _ _ hk2
      (by rwa [Nat.add_sub_cancel' hcase])
      (fun j hj => hbefore _ (by omega)) hnocrash]
    simp only [if_true]
    rw [List.take_append_eq_append_take, List.take_of_length_le hcase]
    simp [List.flatMap_append]

/-- Witness for C7: the stop condition appears at the second batch attempt
(still in exploration, so the crash-freedom hypothesis is vacuous) of a
fresh run with `n = 2`, `batch = 1`, two exploration and one exploitation
batch. -/
theorem stop_halts_immediately_witness :
    searchEvents (fun t => decide (t = 1)) 2 1 0 2 1
      = ((batchSchedule 0 2 1).take 1).flatMap
          fun id => [Event.eval id, Event.save id] :=
  stop_halts_immediately (fun t => decide (t = 1)) 2 1 0 2 1 1 (by decide)
    (by decide) (by decide) (by decide)

/-! ## Theorems: fresh-run initialization (claim C2) -/

/-- Claim C2 is false on the code: when no checkpoint file exists
(`loaded = none`) the code does set `curr_iter = 0` (line 91), but a fresh
`PointSet` is generated only under `if not continue_search:` (line 127) —
with `continue_search = True` (the constructor default) and either value of
`widen_search`, the `points` variable is never assigned (`NameError` at its
first use in the exploration loop), instead of the fresh `rseq(n, d)` point
set the claim requires for every setting of the continuation flags. -/
theorem init_fresh_missing_points (n d start : ℕ) :
    (∀ cs : Bool, ∀ saved, initCurrIter false cs saved = 0) ∧
    initPoints true false none n d start = none ∧
    initPoints true true none n d start = none ∧
    (∀ ws : Bool, initPoints false ws none n d start = some (freshPoints n d)) ∧
    (freshPoints n d).length = n := by
  refine ⟨fun cs saved => rfl, rfl, rfl, fun ws => rfl, ?_⟩
  rw [freshPoints, List.length_map, rseq, List.length_map, List.length_range]

/-! ## Theorems: value normalization (claim C10) -/

theorem le_foldl_max (l : List ℝ) (acc : ℝ) :
    acc ≤ l.foldl (fun a x => max a |x|) acc ∧
    ∀ x ∈ l, |x| ≤ l.foldl (fun a x => max a |x|) acc := by
  induction l generalizing acc with
  | nil => simp
  | cons y rest ih =>
    obtain ⟨h1, h2⟩ := ih (max acc |y|)
    refine ⟨le_trans (le_max_left _ _) h1, ?_⟩
    intro x hx
    rcases List.mem_cons.mp hx with rfl | hx'
    · exact le_trans (le_max_right _ _) h1
    · exact h2 x hx'

theorem foldl_max_le (l : List ℝ) (acc c : ℝ) (hacc : acc ≤ c) (h : ∀ x ∈ l, |x| ≤ c) :
    l.foldl (fun a x => max a |x|) acc ≤ c := by
  induction l generalizing acc with
  | nil => simpa
  | cons y rest ih =>
    exact ih (max acc |y|) (max_le hacc (h y (by simp))) fun x hx => h x (by simp [hx])

/-- Claim C10: `fmax` is the maximum absolute stored value; it is zero
exactly when the objective was zero at every exploration point, so
`fmax ≠ 0` — equivalently, some stored value being nonzero — is exactly the
condition under which the unguarded divisions by `fmax` (lines 151 and 182)
are well-defined, i.e. invertible normalizations. -/
theorem fmax_normalization (vs : List ℝ) (hne : vs ≠ []) :
    0 ≤ fmax vs ∧
    (∀ v ∈ vs, |v| ≤ fmax vs) ∧
    (fmax vs = 0 ↔ ∀ v ∈ vs, v = 0) ∧
    (fmax vs ≠ 0 → ∀ v ∈ vs, v / fmax vs * fmax vs = v) := by
  match vs with
  | [] => exact absurd rfl hne
  | v :: rest =>
    obtain ⟨h1, h2⟩ := le_foldl_max rest |v|
    have hnn : 0 ≤ fmax (v :: rest) := le_trans (abs_nonneg v) h1
    have hbd : ∀ x ∈ v :: rest, |x| ≤ fmax (v :: rest) := by
      intro x hx
      rcases List.mem_cons.mp hx with rfl | hx'
      · exact h1
      · exact h2 x hx'
    refine ⟨hnn, hbd, ⟨?_, ?_⟩, fun h0 x hx => div_mul_cancel₀ x h0⟩
    · intro hz x hx
      have := hbd x hx
      rw [hz] at this
      exact abs_eq_zero.mp (le_antisymm this (abs_nonneg x))
    · intro hz
      refine le_antisymm ?_ hnn
      show List.foldl (fun a x => max a |x|) |v| rest ≤ 0
      exact foldl_max_le rest |v| 0 (by simp [hz v (by simp)]) fun x hx => by
        simp [hz x (by simp [hx])]

/-- Witness for C10 at the stored values `1, -2, 0`. -/
theorem fmax_normalization_witness :
    0 ≤ fmax [1, -2, 0] ∧
    (∀ v ∈ [(1 : ℝ), -2, 0], |v| ≤ fmax [1, -2, 0]) ∧
    (fmax [1, -2, 0] = 0 ↔ ∀ v ∈ [(1 : ℝ), -2, 0], v = 0) ∧
    (fmax [1, -2, 0] ≠ 0 → ∀ v ∈ [(1 : ℝ), -2, 0], v / fmax [1, -2, 0] * fmax [1, -2, 0] = v) :=
  fmax_normalization [1, -2, 0] (by simp)

end Blackbox
